import Mathlib

/-!
Verification of the `automap` library: maps whose values contain their own
keys.  The Rust code wraps `std::collections::HashMap` / `BTreeMap` in a
newtype (`AutoHashMap` / `AutoBTreeMap`) parameterized by a trait
`AutoMapped` providing `split : T -> (Key, Value)` and
`join : (Key, Value) -> T`.  We model the two backends as association
lists: the hash backend replaces a present key in place (observable
behaviour of `HashMap::insert`: get/remove/len/set-of-pairs), the btree
backend keeps the list sorted by key in strictly ascending order, which is
exactly the iteration order `BTreeMap` exposes.
-/

namespace Automap

variable {K V T : Type}

/-- Lookup in an association list: first entry whose key equals `k`
(models `HashMap::get` / `BTreeMap::get` observably). -/
def alGet [DecidableEq K] (k : K) : List (K × V) → Option V
  | [] => none
  | p :: rest => if p.1 = k then some p.2 else alGet k rest

/-- Insert for the hash backend: replace the first entry with key `k` and
return the displaced value, or append `(k, v)` if `k` is absent.  Models
`HashMap::insert`'s observable behaviour. -/
def alInsert [DecidableEq K] (k : K) (v : V) : List (K × V) → Option V × List (K × V)
  | [] => (none, [(k, v)])
  | p :: rest =>
    if p.1 = k then (some p.2, (k, v) :: rest)
    else
      let r := alInsert k v rest
      (r.1, p :: r.2)

/-- Removal: delete the first entry with key `k`, returning its value.
Models `HashMap::remove` / `BTreeMap::remove` observably. -/
def alRemove [DecidableEq K] (k : K) : List (K × V) → Option V × List (K × V)
  | [] => (none, [])
  | p :: rest =>
    if p.1 = k then (some p.2, rest)
    else
      let r := alRemove k rest
      (r.1, p :: r.2)

/-- Insert for the btree backend: keep the list sorted by key.  On a list
with strictly ascending keys this is `BTreeMap::insert`'s observable
behaviour, including iteration order. -/
def btInsert [LinearOrder K] (k : K) (v : V) : List (K × V) → Option V × List (K × V)
  | [] => (none, [(k, v)])
  | p :: rest =>
    if k < p.1 then (none, (k, v) :: p :: rest)
    else if p.1 = k then (some p.2, (k, v) :: rest)
    else
      let r := btInsert k v rest
      (r.1, p :: r.2)

/-- Keys of an association list are pairwise distinct (the representation
invariant of the hash backend). -/
def nodupKeys (l : List (K × V)) : Prop := (l.map Prod.fst).Nodup

/-- Keys are strictly ascending (the representation invariant of the
btree backend). -/
def sortedKeys [LinearOrder K] (l : List (K × V)) : Prop :=
  l.Pairwise (fun p q => p.1 < q.1)

/-- The `AutoMapped` trait of `src/lib.rs`: how a value of type `T` splits
into a key-value pair and is reconstituted from one. -/
structure AutoMapped (T K V : Type) where
  split : T → K × V
  join : K × V → T

/-- `AutoHashMap<T>`: newtype around the hash backend (`lib.rs`). -/
structure AutoHashMap (K V : Type) where
  inner : List (K × V)

/-- `AutoBTreeMap<T>`: newtype around the btree backend (`lib.rs`). -/
structure AutoBTreeMap (K V : Type) where
  inner : List (K × V)

namespace AutoHashMap

/-- `AutoHashMap::new` -/
def new : AutoHashMap K V := ⟨[]⟩

/-- `derive_more::Into`: unwrap to the raw backend container. -/
def intoInner (m : AutoHashMap K V) : List (K × V) := m.inner

/-- `derive_more::From`: wrap a raw backend container (unchecked). -/
def fromInner (l : List (K × V)) : AutoHashMap K V := ⟨l⟩

/-- `AutoHashMap::insert`: split `t` and insert the pair, returning the
displaced payload. -/
def insert [DecidableEq K] (am : AutoMapped T K V) (m : AutoHashMap K V) (t : T) :
    Option V × AutoHashMap K V :=
  let kv := am.split t
  let r := alInsert kv.1 kv.2 m.inner
  (r.1, ⟨r.2⟩)

/-- `AutoHashMap::insert_cloned`: like `insert` but the displaced payload
is rejoined with the (cloned) key into a full `T`. -/
def insertCloned [DecidableEq K] (am : AutoMapped T K V) (m : AutoHashMap K V) (t : T) :
    Option T × AutoHashMap K V :=
  let kv := am.split t
  let r := alInsert kv.1 kv.2 m.inner
  (r.1.map fun val => am.join (kv.1, val), ⟨r.2⟩)

/-- `AutoHashMap::remove_cloned`: remove by key, rejoining the removed
payload with the key. -/
def removeCloned [DecidableEq K] (am : AutoMapped T K V) (m : AutoHashMap K V) (k : K) :
    Option T × AutoHashMap K V :=
  let r := alRemove k m.inner
  (r.1.map fun val => am.join (k, val), ⟨r.2⟩)

/-- `AutoHashMap::get_cloned`: look up by key, rejoining the found payload
with the key. -/
def getCloned [DecidableEq K] (am : AutoMapped T K V) (m : AutoHashMap K V) (k : K) :
    Option T :=
  (alGet k m.inner).map fun val => am.join (k, val)

/-- Pass-through `HashMap::remove` (via the `Shrinkwrap` deref). -/
def removeRaw [DecidableEq K] (m : AutoHashMap K V) (k : K) :
    Option V × AutoHashMap K V :=
  let r := alRemove k m.inner
  (r.1, ⟨r.2⟩)

/-- Pass-through `HashMap::len`. -/
def len (m : AutoHashMap K V) : Nat := m.inner.length

end AutoHashMap

namespace AutoBTreeMap

/-- `AutoBTreeMap::new` -/
def new : AutoBTreeMap K V := ⟨[]⟩

/-- `derive_more::Into`: unwrap to the raw backend container. -/
def intoInner (m : AutoBTreeMap K V) : List (K × V) := m.inner

/-- `derive_more::From`: wrap a raw backend container (unchecked). -/
def fromInner (l : List (K × V)) : AutoBTreeMap K V := ⟨l⟩

/-- `AutoBTreeMap::insert` -/
def insert [LinearOrder K] (am : AutoMapped T K V) (m : AutoBTreeMap K V) (t : T) :
    Option V × AutoBTreeMap K V :=
  let kv := am.split t
  let r := btInsert kv.1 kv.2 m.inner
  (r.1, ⟨r.2⟩)

/-- `AutoBTreeMap::insert_cloned` -/
def insertCloned [LinearOrder K] (am : AutoMapped T K V) (m : AutoBTreeMap K V) (t : T) :
    Option T × AutoBTreeMap K V :=
  let kv := am.split t
  let r := btInsert kv.1 kv.2 m.inner
  (r.1.map fun val => am.join (kv.1, val), ⟨r.2⟩)

/-- `AutoBTreeMap::remove_cloned` -/
def removeCloned [LinearOrder K] (am : AutoMapped T K V) (m : AutoBTreeMap K V) (k : K) :
    Option T × AutoBTreeMap K V :=
  let r := alRemove k m.inner
  (r.1.map fun val => am.join (k, val), ⟨r.2⟩)

/-- `AutoBTreeMap::get_cloned` -/
def getCloned [LinearOrder K] (am : AutoMapped T K V) (m : AutoBTreeMap K V) (k : K) :
    Option T :=
  (alGet k m.inner).map fun val => am.join (k, val)

/-- Pass-through `BTreeMap::remove`. -/
def removeRaw [LinearOrder K] (m : AutoBTreeMap K V) (k : K) :
    Option V × AutoBTreeMap K V :=
  let r := alRemove k m.inner
  (r.1, ⟨r.2⟩)

/-- Pass-through `BTreeMap::len`. -/
def len (m : AutoBTreeMap K V) : Nat := m.inner.length

/-- Pass-through `BTreeMap::keys` (iteration order of the model list). -/
def keys (m : AutoBTreeMap K V) : List K := m.inner.map Prod.fst

end AutoBTreeMap

/-- A Rust `String` is modelled by its character sequence; equality and the
`Ord` used by `BTreeMap` are lexicographic, matching Mathlib's order on
`List Char` (UTF-8 byte order coincides with codepoint order). -/
def str (s : String) : List Char := s.data

/-- The `Person` type of `src/tests.rs`: keyed by `name`, payload `age`
(a `u16`; no arithmetic is performed on it, so we model it as `Nat`). -/
structure Person where
  name : List Char
  age : Nat
  deriving DecidableEq

/-- The `impl AutoMapped for Person` of `src/tests.rs`:
`split` yields `(name, age)`, `join` rebuilds the struct. -/
def personAM : AutoMapped Person (List Char) Nat :=
  ⟨fun p => (p.name, p.age), fun kv => ⟨kv.1, kv.2⟩⟩

/-- `bob1` from `src/tests.rs`. -/
def bob1 : Person := ⟨str "Bob", 23⟩

/-- `bob2` from `src/tests.rs`. -/
def bob2 : Person := ⟨str "Bob", 41⟩

/-- `ruth` from `src/tests.rs`. -/
def ruth : Person := ⟨str "Ruth", 32⟩

/-- The hash-map scenario of `src/tests.rs::auto_hashmap`, as successive
states: insert `bob1`, then `ruth`, then `bob2`, then remove `"Bob"` and
`"Ruth"` through the pass-through `remove`. -/
def hs1 : Option Nat × AutoHashMap (List Char) Nat :=
  AutoHashMap.insert personAM AutoHashMap.new bob1

/-- Second step of the hash scenario. -/
def hs2 : Option Nat × AutoHashMap (List Char) Nat :=
  AutoHashMap.insert personAM hs1.2 ruth

/-- Third step of the hash scenario. -/
def hs3 : Option Nat × AutoHashMap (List Char) Nat :=
  AutoHashMap.insert personAM hs2.2 bob2

/-- Fourth step of the hash scenario: pass-through removal of "Bob". -/
def hs4 : Option Nat × AutoHashMap (List Char) Nat :=
  AutoHashMap.removeRaw hs3.2 (str "Bob")

/-- Fifth step of the hash scenario: pass-through removal of "Ruth". -/
def hs5 : Option Nat × AutoHashMap (List Char) Nat :=
  AutoHashMap.removeRaw hs4.2 (str "Ruth")

/-- The btree scenario of `src/tests.rs::auto_btreemap`, first step. -/
def bs1 : Option Nat × AutoBTreeMap (List Char) Nat :=
  AutoBTreeMap.insert personAM AutoBTreeMap.new bob1

/-- Second step of the btree scenario. -/
def bs2 : Option Nat × AutoBTreeMap (List Char) Nat :=
  AutoBTreeMap.insert personAM bs1.2 ruth

/-- Third step of the btree scenario. -/
def bs3 : Option Nat × AutoBTreeMap (List Char) Nat :=
  AutoBTreeMap.insert personAM bs2.2 bob2

/-- Fourth step of the btree scenario: pass-through removal of "Bob". -/
def bs4 : Option Nat × AutoBTreeMap (List Char) Nat :=
  AutoBTreeMap.removeRaw bs3.2 (str "Bob")

/-- Fifth step of the btree scenario: pass-through removal of "Ruth". -/
def bs5 : Option Nat × AutoBTreeMap (List Char) Nat :=
  AutoBTreeMap.removeRaw bs4.2 (str "Ruth")

/-- Hash maps reachable from empty through the adapter's own operations
(`insert`, `insert_cloned`, `remove_cloned`, pass-through `remove`;
`get_cloned` does not produce a map). -/
inductive HashReachable [DecidableEq K] (am : AutoMapped T K V) : AutoHashMap K V → Prop
  | empty : HashReachable am AutoHashMap.new
  | insert (m : AutoHashMap K V) (t : T) :
      HashReachable am m → HashReachable am (AutoHashMap.insert am m t).2
  | insertCloned (m : AutoHashMap K V) (t : T) :
      HashReachable am m → HashReachable am (AutoHashMap.insertCloned am m t).2
  | removeCloned (m : AutoHashMap K V) (k : K) :
      HashReachable am m → HashReachable am (AutoHashMap.removeCloned am m k).2
  | removeRaw (m : AutoHashMap K V) (k : K) :
      HashReachable am m → HashReachable am (AutoHashMap.removeRaw m k).2

/-- Btree maps reachable from empty through the adapter's own operations. -/
inductive BTreeReachable [LinearOrder K] (am : AutoMapped T K V) : AutoBTreeMap K V → Prop
  | empty : BTreeReachable am AutoBTreeMap.new
  | insert (m : AutoBTreeMap K V) (t : T) :
      BTreeReachable am m → BTreeReachable am (AutoBTreeMap.insert am m t).2
  | insertCloned (m : AutoBTreeMap K V) (t : T) :
      BTreeReachable am m → BTreeReachable am (AutoBTreeMap.insertCloned am m t).2
  | removeCloned (m : AutoBTreeMap K V) (k : K) :
      BTreeReachable am m → BTreeReachable am (AutoBTreeMap.removeCloned am m k).2
  | removeRaw (m : AutoBTreeMap K V) (k : K) :
      BTreeReachable am m → BTreeReachable am (AutoBTreeMap.removeRaw m k).2

/-- The historical trait of `src/hash.rs` / `src/btree.rs` (shape a): the
value owns its key, exposed through the non-consuming accessor `key`. -/
structure AutoKeyed (T K : Type) where
  key : T → K

/-- The historical `AutoHashMap<T>` of `src/hash.rs`: the backend stores
the whole entity `T` under a clone of its key. -/
structure HistAutoHashMap (K T : Type) where
  inner : List (K × T)

/-- The historical `AutoBTreeMap<T>` of `src/btree.rs`. -/
structure HistAutoBTreeMap (K T : Type) where
  inner : List (K × T)

/-- `src/hash.rs::AutoHashMap::insert`: store the whole entity under
`val.key().clone()`, returning the displaced whole entity. -/
def HistAutoHashMap.insert [DecidableEq K] (am : AutoKeyed T K)
    (m : HistAutoHashMap K T) (val : T) : Option T × HistAutoHashMap K T :=
  let r := alInsert (am.key val) val m.inner
  (r.1, ⟨r.2⟩)

/-- `src/btree.rs::AutoBTreeMap::insert`. -/
def HistAutoBTreeMap.insert [LinearOrder K] (am : AutoKeyed T K)
    (m : HistAutoBTreeMap K T) (val : T) : Option T × HistAutoBTreeMap K T :=
  let r := btInsert (am.key val) val m.inner
  (r.1, ⟨r.2⟩)

/-- The historical shape-a contract instantiated at `Person`: the key
accessor returns the `name` field (the doc example of `src/hash.rs`). -/
def personKeyed : AutoKeyed Person (List Char) := ⟨Person.name⟩

end Automap

namespace Automap

variable {K V T : Type}

theorem alGet_eq_none_iff [DecidableEq K] (k : K) (l : List (K × V)) :
    alGet k l = none ↔ k ∉ l.map Prod.fst := by
  induction l with
  | nil => simp [alGet]
  | cons p rest ih =>
    by_cases h : p.1 = k
    · simp [alGet, h]
    · simp only [alGet, if_neg h, List.map_cons, List.mem_cons, ih]
      constructor
      · rintro hn (rfl | hk)
        · exact h rfl
        · exact hn hk
      · intro hn hk
        exact hn (Or.inr hk)

theorem alInsert_fst [DecidableEq K] (k : K) (v : V) (l : List (K × V)) :
    (alInsert k v l).1 = alGet k l := by
  induction l with
  | nil => rfl
  | cons p rest ih =>
    by_cases h : p.1 = k
    · simp [alInsert, alGet, h]
    · simp [alInsert, alGet, h, ih]

theorem alGet_alInsert_self [DecidableEq K] (k : K) (v : V) (l : List (K × V)) :
    alGet k (alInsert k v l).2 = some v := by
  induction l with
  | nil => simp [alInsert, alGet]
  | cons p rest ih =>
    by_cases h : p.1 = k
    · simp [alInsert, alGet, h]
    · simp [alInsert, alGet, h, ih]

theorem alGet_alInsert_ne [DecidableEq K] (k k' : K) (v : V) (l : List (K × V))
    (h : k' ≠ k) : alGet k' (alInsert k v l).2 = alGet k' l := by
  induction l with
  | nil => simp [alInsert, alGet, Ne.symm h]
  | cons p rest ih =>
    by_cases hp : p.1 = k
    · simp [alInsert, alGet, hp, Ne.symm h]
    · simp [alInsert, alGet, hp, ih]

theorem mem_keys_alInsert [DecidableEq K] (k k' : K) (v : V) (l : List (K × V)) :
    k' ∈ (alInsert k v l).2.map Prod.fst ↔ k' = k ∨ k' ∈ l.map Prod.fst := by
  induction l with
  | nil => simp [alInsert]
  | cons p rest ih =>
    by_cases hp : p.1 = k
    · subst hp
      simp [alInsert]
    · simp only [alInsert, if_neg hp, List.map_cons, List.mem_cons, ih]
      tauto

theorem nodupKeys_alInsert [DecidableEq K] (k : K) (v : V) (l : List (K × V))
    (h : nodupKeys l) : nodupKeys (alInsert k v l).2 := by
  induction l with
  | nil => simp [alInsert, nodupKeys]
  | cons p rest ih =>
    simp only [nodupKeys, List.map_cons, List.nodup_cons] at h
    by_cases hp : p.1 = k
    · subst hp
      simpa [alInsert, nodupKeys] using h
    · have hrest := ih h.2
      simp only [alInsert, if_neg hp, nodupKeys, List.map_cons, List.nodup_cons]
      refine ⟨?_, hrest⟩
      rw [mem_keys_alInsert]
      rintro (hk | hk)
      · exact hp hk
      · exact h.1 hk

theorem self_mem_alInsert [DecidableEq K] (k : K) (v : V) (l : List (K × V)) :
    (k, v) ∈ (alInsert k v l).2 := by
  induction l with
  | nil => simp [alInsert]
  | cons p rest ih =>
    by_cases hp : p.1 = k
    · simp [alInsert, hp]
    · simp [alInsert, hp, ih]

theorem alRemove_fst [DecidableEq K] (k : K) (l : List (K × V)) :
    (alRemove k l).1 = alGet k l := by
  induction l with
  | nil => rfl
  | cons p rest ih =>
    by_cases h : p.1 = k
    · simp [alRemove, alGet, h]
    · simp [alRemove, alGet, h, ih]

theorem alRemove_of_alGet_none [DecidableEq K] (k : K) (l : List (K × V))
    (h : alGet k l = none) : alRemove k l = (none, l) := by
  induction l with
  | nil => rfl
  | cons p rest ih =>
    by_cases hp : p.1 = k
    · simp [alGet, hp] at h
    · simp only [alGet, if_neg hp] at h
      simp [alRemove, hp, ih h]

theorem alGet_alRemove_ne [DecidableEq K] (k k' : K) (l : List (K × V))
    (h : k' ≠ k) : alGet k' (alRemove k l).2 = alGet k' l := by
  induction l with
  | nil => rfl
  | cons p rest ih =>
    by_cases hp : p.1 = k
    · subst hp
      simp [alRemove, alGet, Ne.symm h]
    · simp [alRemove, alGet, hp, ih]

theorem alGet_alRemove_self [DecidableEq K] (k : K) (l : List (K × V))
    (h : nodupKeys l) : alGet k (alRemove k l).2 = none := by
  induction l with
  | nil => rfl
  | cons p rest ih =>
    simp only [nodupKeys, List.map_cons, List.nodup_cons] at h
    by_cases hp : p.1 = k
    · subst hp
      simp only [alRemove, if_pos rfl]
      exact (alGet_eq_none_iff _ _).mpr h.1
    · simp [alRemove, alGet, hp, ih h.2]

theorem length_alRemove [DecidableEq K] (k : K) (v : V) (l : List (K × V))
    (h : alGet k l = some v) : (alRemove k l).2.length + 1 = l.length := by
  induction l with
  | nil => simp [alGet] at h
  | cons p rest ih =>
    by_cases hp : p.1 = k
    · simp [alRemove, hp]
    · simp only [alGet, if_neg hp] at h
      simp [alRemove, hp, ih h]

theorem filter_key_eq_nil [DecidableEq K] (k : K) (l : List (K × V))
    (h : k ∉ l.map Prod.fst) :
    l.filter (fun p => decide (p.1 = k)) = [] := by
  induction l with
  | nil => rfl
  | cons p rest ih =>
    simp only [List.map_cons, List.mem_cons] at h
    push_neg at h
    have hp : ¬ p.1 = k := fun hh => h.1 hh.symm
    simp [List.filter, hp, ih h.2]

theorem filter_key_of_nodup [DecidableEq K] (k : K) (v : V) (l : List (K × V))
    (hnd : nodupKeys l) (hget : alGet k l = some v) :
    l.filter (fun p => decide (p.1 = k)) = [(k, v)] := by
  induction l with
  | nil => simp [alGet] at hget
  | cons p rest ih =>
    simp only [nodupKeys, List.map_cons, List.nodup_cons] at hnd
    by_cases hp : p.1 = k
    · simp only [alGet, if_pos hp] at hget
      have hpair : p = (k, v) := by
        obtain ⟨p1, p2⟩ := p
        cases hget
        cases hp
        rfl
      have hrest : rest.filter (fun p => decide (p.1 = k)) = [] := by
        apply filter_key_eq_nil
        rw [← hp]
        exact hnd.1
      simp [List.filter, hp, hrest, hpair]
    · simp only [alGet, if_neg hp] at hget
      simp [List.filter, hp, ih hnd.2 hget]

end Automap

namespace Automap

variable {K V T : Type}

theorem mem_btInsert [LinearOrder K] (k : K) (v : V) (l : List (K × V))
    (q : K × V) (hq : q ∈ (btInsert k v l).2) : q = (k, v) ∨ q ∈ l := by
  induction l with
  | nil =>
    simp [btInsert] at hq
    exact Or.inl hq
  | cons p rest ih =>
    by_cases h1 : k < p.1
    · simp only [btInsert, if_pos h1, List.mem_cons] at hq
      rcases hq with rfl | hq
      · exact Or.inl rfl
      · exact Or.inr (List.mem_cons.mpr hq)
    · by_cases h2 : p.1 = k
      · simp only [btInsert, if_neg h1, if_pos h2, List.mem_cons] at hq
        rcases hq with rfl | hq
        · exact Or.inl rfl
        · exact Or.inr (List.mem_cons.mpr (Or.inr hq))
      · simp only [btInsert, if_neg h1, if_neg h2, List.mem_cons] at hq
        rcases hq with rfl | hq
        · exact Or.inr (List.mem_cons.mpr (Or.inl rfl))
        · rcases ih hq with hh | hh
          · exact Or.inl hh
          · exact Or.inr (List.mem_cons.mpr (Or.inr hh))

theorem sortedKeys_nodupKeys [LinearOrder K] (l : List (K × V))
    (h : sortedKeys l) : nodupKeys l := by
  have : l.Pairwise (fun p q => p.1 ≠ q.1) := h.imp (fun hlt => ne_of_lt hlt)
  exact List.pairwise_map.mpr this

theorem alGet_of_sorted_lt [LinearOrder K] (k : K) (l : List (K × V))
    (hlt : ∀ q ∈ l, k < q.1) : alGet k l = none := by
  rw [alGet_eq_none_iff]
  simp only [List.mem_map]
  rintro ⟨q, hq, rfl⟩
  exact lt_irrefl _ (hlt q hq)

theorem btInsert_fst [LinearOrder K] (k : K) (v : V) (l : List (K × V))
    (h : sortedKeys l) : (btInsert k v l).1 = alGet k l := by
  induction l with
  | nil => rfl
  | cons p rest ih =>
    simp only [sortedKeys, List.pairwise_cons] at h
    by_cases h1 : k < p.1
    · have : alGet k (p :: rest) = none := by
        apply alGet_of_sorted_lt k (p :: rest)
        intro q hq
        rcases List.mem_cons.mp hq with rfl | hq
        · exact h1
        · exact lt_trans h1 (h.1 q hq)
      simp [btInsert, h1, this]
    · by_cases h2 : p.1 = k
      · simp [btInsert, h1, h2, alGet]
      · simp only [sortedKeys] at ih
        simp [btInsert, h1, h2, alGet, ih h.2]

theorem alGet_btInsert_self [LinearOrder K] (k : K) (v : V) (l : List (K × V)) :
    alGet k (btInsert k v l).2 = some v := by
  induction l with
  | nil => simp [btInsert, alGet]
  | cons p rest ih =>
    by_cases h1 : k < p.1
    · simp [btInsert, h1, alGet]
    · by_cases h2 : p.1 = k
      · simp [btInsert, h1, h2, alGet]
      · simp [btInsert, h1, h2, alGet, ih]

theorem alGet_btInsert_ne [LinearOrder K] (k k' : K) (v : V) (l : List (K × V))
    (h : k' ≠ k) : alGet k' (btInsert k v l).2 = alGet k' l := by
  induction l with
  | nil => simp [btInsert, alGet, Ne.symm h]
  | cons p rest ih =>
    by_cases h1 : k < p.1
    · simp [btInsert, h1, alGet, Ne.symm h]
    · by_cases h2 : p.1 = k
      · subst h2
        simp [btInsert, h1, alGet, Ne.symm h]
      · simp [btInsert, h1, h2, alGet, ih]

theorem sortedKeys_btInsert [LinearOrder K] (k : K) (v : V) (l : List (K × V))
    (h : sortedKeys l) : sortedKeys (btInsert k v l).2 := by
  induction l with
  | nil => simp [btInsert, sortedKeys]
  | cons p rest ih =>
    simp only [sortedKeys, List.pairwise_cons] at h ih ⊢
    by_cases h1 : k < p.1
    · simp only [btInsert, if_pos h1, List.pairwise_cons]
      refine ⟨?_, h.1, h.2⟩
      intro q hq
      rcases List.mem_cons.mp hq with rfl | hq
      · exact h1
      · exact lt_trans h1 (h.1 q hq)
    · by_cases h2 : p.1 = k
      · simp only [btInsert, if_neg h1, if_pos h2, List.pairwise_cons]
        refine ⟨?_, h.2⟩
        intro q hq
        exact h2 ▸ h.1 q hq
      · have h3 : p.1 < k := lt_of_le_of_ne (le_of_not_lt h1) h2
        simp only [btInsert, if_neg h1, if_neg h2, List.pairwise_cons]
        refine ⟨?_, ih h.2⟩
        intro q hq
        rcases mem_btInsert k v rest q hq with rfl | hq
        · exact h3
        · exact h.1 q hq

theorem sortedKeys_alRemove [LinearOrder K] (k : K) (l : List (K × V))
    (h : sortedKeys l) : sortedKeys (alRemove k l).2 := by
  induction l with
  | nil => exact h
  | cons p rest ih =>
    simp only [sortedKeys, List.pairwise_cons] at h ih ⊢
    by_cases hp : p.1 = k
    · simpa [alRemove, hp] using h.2
    · simp only [alRemove, if_neg hp, List.pairwise_cons]
      refine ⟨?_, ih h.2⟩
      intro q hq
      have : (alRemove k rest).2.Sublist rest := by
        clear ih h hq
        induction rest with
        | nil => simp [alRemove]
        | cons p2 rest2 ih2 =>
          by_cases hp2 : p2.1 = k
          · simp [alRemove, hp2]
          · simp only [alRemove, if_neg hp2]
            exact List.Sublist.cons₂ p2 ih2
      exact h.1 q (this.mem hq)

theorem nodupKeys_alRemove [DecidableEq K] (k : K) (l : List (K × V))
    (h : nodupKeys l) : nodupKeys (alRemove k l).2 := by
  induction l with
  | nil => exact h
  | cons p rest ih =>
    simp only [nodupKeys, List.map_cons, List.nodup_cons] at h
    by_cases hp : p.1 = k
    · simpa [alRemove, hp, nodupKeys] using h.2
    · simp only [alRemove, if_neg hp, nodupKeys, List.map_cons, List.nodup_cons]
      refine ⟨?_, ih h.2⟩
      intro hmem
      apply h.1
      have hsub : (alRemove k rest).2.Sublist rest := by
        clear ih h hmem
        induction rest with
        | nil => simp [alRemove]
        | cons p2 rest2 ih2 =>
          by_cases hp2 : p2.1 = k
          · simp [alRemove, hp2]
          · simp only [alRemove, if_neg hp2]
            exact List.Sublist.cons₂ p2 ih2
      exact (hsub.map Prod.fst).mem hmem

end Automap

namespace Automap

variable {K V T : Type}

/-- C4: Round-trip law: for the repository's `AutoMapped` implementation —
`Person`, whose `split` yields `(name, age)` and whose `join` rebuilds the
struct from them — `join(split(t)) == t` holds for every value `t`. -/
theorem person_round_trip (t : Person) : personAM.join (personAM.split t) = t := rfl

/-- C6: Conversion fidelity: converting an `AutoHashMap` (or `AutoBTreeMap`)
into its raw backend container (`Into`) and converting that container back
(`From`) yields a map equal to the original, with the same key/value pairs
and the same cardinality. -/
theorem conversion_fidelity (m : AutoHashMap K V) (bm : AutoBTreeMap K V) :
    (AutoHashMap.fromInner m.intoInner = m ∧
     (AutoHashMap.fromInner m.intoInner).inner = m.inner ∧
     (AutoHashMap.fromInner m.intoInner).len = m.len) ∧
    (AutoBTreeMap.fromInner bm.intoInner = bm ∧
     (AutoBTreeMap.fromInner bm.intoInner).inner = bm.inner ∧
     (AutoBTreeMap.fromInner bm.intoInner).len = bm.len) :=
  ⟨⟨rfl, rfl, rfl⟩, ⟨rfl, rfl, rfl⟩⟩

/-- C7: Concrete hash-indexed scenario (`src/tests.rs::auto_hashmap`):
from empty, inserting Bob/23 and Ruth/32 returns `none`; inserting Bob/41
returns `some 23` (and the prior Bob entity under `insert_cloned`); the
map then has 2 entries, looks up Bob at 41, removing Bob returns 41,
removing Ruth returns 32, and the map is then empty. -/
theorem hash_scenario :
    hs1.1 = none ∧ hs2.1 = none ∧ hs3.1 = some 23 ∧
    (AutoHashMap.insertCloned personAM hs2.2 bob2).1 = some bob1 ∧
    hs3.2.len = 2 ∧
    AutoHashMap.getCloned personAM hs3.2 (str "Bob") = some bob2 ∧
    alGet (str "Bob") hs3.2.inner = some 41 ∧
    hs4.1 = some 41 ∧ hs5.1 = some 32 ∧ hs5.2.len = 0 := by
  decide

/-- C8: Order-indexed equivalence and ordering: the same scenario run on an
`AutoBTreeMap` produces observable results identical to the hash-indexed
run, and before the removals the key iteration visits the keys in strictly
ascending order, Bob before Ruth. -/
theorem btree_scenario :
    (bs1.1 = hs1.1 ∧ bs2.1 = hs2.1 ∧ bs3.1 = hs3.1 ∧
     (AutoBTreeMap.insertCloned personAM bs2.2 bob2).1 =
       (AutoHashMap.insertCloned personAM hs2.2 bob2).1 ∧
     AutoBTreeMap.getCloned personAM bs3.2 (str "Bob") =
       AutoHashMap.getCloned personAM hs3.2 (str "Bob") ∧
     bs3.2.len = hs3.2.len ∧ bs4.1 = hs4.1 ∧ bs5.1 = hs5.1 ∧
     bs5.2.len = hs5.2.len) ∧
    bs3.2.keys = [str "Bob", str "Ruth"] ∧
    List.Chain' (fun a b => a < b) bs3.2.keys := by
  refine ⟨by decide, by decide, ?_⟩
  have h : bs3.2.keys = [str "Bob", str "Ruth"] := by decide
  rw [h]
  exact List.chain'_cons.mpr ⟨List.Lex.rel (by decide), List.chain'_singleton _⟩

end Automap

namespace Automap

variable {K V T : Type}

theorem self_mem_btInsert [LinearOrder K] (k : K) (v : V) (l : List (K × V)) :
    (k, v) ∈ (btInsert k v l).2 := by
  induction l with
  | nil => simp [btInsert]
  | cons p rest ih =>
    by_cases h1 : k < p.1
    · simp [btInsert, h1]
    · by_cases h2 : p.1 = k
      · simp [btInsert, h1, h2]
      · simp [btInsert, h1, h2, ih]

theorem sortedKeys_pair [LinearOrder K] (a b : K × V) (h : a.1 < b.1) :
    sortedKeys [a, b] := by
  simp only [sortedKeys, List.pairwise_cons, List.mem_singleton, List.not_mem_nil,
    false_implies, implies_true, and_true, List.Pairwise.nil]
  rintro q rfl
  exact h

/-- C1: Key-synchronization invariant: in any `AutoHashMap` or
`AutoBTreeMap` built from empty solely through the adapter's own
operations, assuming the client's split/join pair satisfies
`split(join((k, v))) == (k, v)`, every entry `(k, v)` observable by
iteration has `k` equal to the key derived from the reconstructed entity
`T::join((k, v))`; the reachability hypotheses say exactly that every
adapter operation preserves this. -/
theorem key_sync_invariant {K V T K2 V2 T2 : Type} [DecidableEq K] [LinearOrder K2]
    (am : AutoMapped T K V) (am2 : AutoMapped T2 K2 V2)
    (hSJ : ∀ p, am.split (am.join p) = p) (hSJ2 : ∀ p, am2.split (am2.join p) = p)
    (m : AutoHashMap K V) (bm : AutoBTreeMap K2 V2)
    (_hm : HashReachable am m) (_hbm : BTreeReachable am2 bm) :
    (∀ kv ∈ m.inner, (am.split (am.join kv)).1 = kv.1) ∧
    (∀ kv ∈ bm.inner, (am2.split (am2.join kv)).1 = kv.1) := by
  refine ⟨fun kv _ => ?_, fun kv _ => ?_⟩
  · rw [hSJ]
  · rw [hSJ2]

/-- Witness for C1: the invariant facts at the concrete one- and two-insert
states of the test scenario, all hypotheses discharged. -/
theorem key_sync_invariant_witness :
    (personAM.split (personAM.join (str "Bob", (23 : Nat)))).1 = str "Bob" ∧
    (personAM.split (personAM.join (str "Ruth", (32 : Nat)))).1 = str "Ruth" :=
  ⟨(key_sync_invariant personAM personAM (fun _ => rfl) (fun _ => rfl) hs1.2 bs1.2
      (HashReachable.insert AutoHashMap.new bob1 HashReachable.empty)
      (BTreeReachable.insert AutoBTreeMap.new bob1 BTreeReachable.empty)).1
      (str "Bob", 23) (by decide),
   (key_sync_invariant personAM personAM (fun _ => rfl) (fun _ => rfl) hs2.2 bs2.2
      (HashReachable.insert hs1.2 ruth
        (HashReachable.insert AutoHashMap.new bob1 HashReachable.empty))
      (BTreeReachable.insert bs1.2 ruth
        (BTreeReachable.insert AutoBTreeMap.new bob1 BTreeReachable.empty))).2
      (str "Ruth", 32) (by decide)⟩

/-- C3: Absence semantics: when key `k` is absent, `get_cloned` returns
`none`, `remove_cloned` returns `none` and leaves the map unchanged, and
the pass-through `remove` returns `none` and leaves the map unchanged, on
both backends. -/
theorem absence_semantics {K V T K2 V2 T2 : Type} [DecidableEq K] [LinearOrder K2]
    (am : AutoMapped T K V) (am2 : AutoMapped T2 K2 V2)
    (m : AutoHashMap K V) (bm : AutoBTreeMap K2 V2) (k : K) (k2 : K2)
    (habs : alGet k m.inner = none) (habs2 : alGet k2 bm.inner = none) :
    (AutoHashMap.getCloned am m k = none ∧
     AutoHashMap.removeCloned am m k = (none, m) ∧
     AutoHashMap.removeRaw m k = (none, m)) ∧
    (AutoBTreeMap.getCloned am2 bm k2 = none ∧
     AutoBTreeMap.removeCloned am2 bm k2 = (none, bm) ∧
     AutoBTreeMap.removeRaw bm k2 = (none, bm)) := by
  have hr := alRemove_of_alGet_none k m.inner habs
  have hr2 := alRemove_of_alGet_none k2 bm.inner habs2
  constructor
  · refine ⟨?_, ?_, ?_⟩
    · simp [AutoHashMap.getCloned, habs]
    · simp [AutoHashMap.removeCloned, hr]
    · simp [AutoHashMap.removeRaw, hr]
  · refine ⟨?_, ?_, ?_⟩
    · simp [AutoBTreeMap.getCloned, habs2]
    · simp [AutoBTreeMap.removeCloned, hr2]
    · simp [AutoBTreeMap.removeRaw, hr2]

/-- Witness for C3: the absent key "Carol" on the two-entry scenario maps. -/
theorem absence_semantics_witness :
    alGet (str "Carol") hs3.2.inner = none ∧
    alGet (str "Carol") bs3.2.inner = none ∧
    AutoHashMap.getCloned personAM hs3.2 (str "Carol") = none ∧
    AutoHashMap.removeCloned personAM hs3.2 (str "Carol") = (none, hs3.2) ∧
    AutoBTreeMap.removeRaw bs3.2 (str "Carol") = (none, bs3.2) := by
  have h := absence_semantics personAM personAM hs3.2 bs3.2
    (str "Carol") (str "Carol") (by decide) (by decide)
  exact ⟨by decide, by decide, h.1.1, h.1.2.1, h.2.2.2⟩

/-- C5: `get_cloned` correctness: when `k` is present with payload `v`,
`get_cloned(k)` returns `some (T::join((k, v)))`; and directly after
`insert(t)` (with no later insert under `t`'s key), `get_cloned` at `t`'s
key returns `some t` whenever `join(split(t)) == t`.  Both backends. -/
theorem get_cloned_correct {K V T K2 V2 T2 : Type} [DecidableEq K] [LinearOrder K2]
    (am : AutoMapped T K V) (am2 : AutoMapped T2 K2 V2)
    (m : AutoHashMap K V) (bm : AutoBTreeMap K2 V2) (k : K) (k2 : K2)
    (v : V) (v2 : V2) (t : T) (t2 : T2)
    (hget : alGet k m.inner = some v) (hget2 : alGet k2 bm.inner = some v2)
    (hrt : am.join (am.split t) = t) (hrt2 : am2.join (am2.split t2) = t2) :
    (AutoHashMap.getCloned am m k = some (am.join (k, v)) ∧
     AutoHashMap.getCloned am (AutoHashMap.insert am m t).2 (am.split t).1 = some t) ∧
    (AutoBTreeMap.getCloned am2 bm k2 = some (am2.join (k2, v2)) ∧
     AutoBTreeMap.getCloned am2 (AutoBTreeMap.insert am2 bm t2).2 (am2.split t2).1 = some t2) := by
  constructor
  · constructor
    · simp [AutoHashMap.getCloned, hget]
    · simp [AutoHashMap.getCloned, AutoHashMap.insert, alGet_alInsert_self, hrt]
  · constructor
    · simp [AutoBTreeMap.getCloned, hget2]
    · simp [AutoBTreeMap.getCloned, AutoBTreeMap.insert, alGet_btInsert_self, hrt2]

/-- Witness for C5 on the concrete scenario maps: Bob is present at 41. -/
theorem get_cloned_correct_witness :
    alGet (str "Bob") hs3.2.inner = some 41 ∧
    AutoHashMap.getCloned personAM hs3.2 (str "Bob") = some (personAM.join (str "Bob", 41)) ∧
    AutoBTreeMap.getCloned personAM bs3.2 (str "Bob") = some (personAM.join (str "Bob", 41)) ∧
    AutoHashMap.getCloned personAM (AutoHashMap.insert personAM hs2.2 bob2).2
      (personAM.split bob2).1 = some bob2 := by
  have h := get_cloned_correct personAM personAM hs3.2 bs3.2
    (str "Bob") (str "Bob") 41 41 bob2 bob2
    (by decide) (by decide) rfl rfl
  exact ⟨by decide, h.1.1, h.2.1, h.1.2⟩

end Automap

namespace Automap

/-- C2: Replace semantics: inserting an entity whose derived key `k` is
already present returns the previously stored payload (`insert`) or the
previous entity reconstructed via `join` (`insert_cloned`); after either
call the map holds exactly one entry under `k`, namely the new payload,
so the later insertion strictly wins.  Both backends. -/
theorem replace_semantics {K V T K2 V2 T2 : Type} [DecidableEq K] [LinearOrder K2]
    (am : AutoMapped T K V) (am2 : AutoMapped T2 K2 V2)
    (m : AutoHashMap K V) (bm : AutoBTreeMap K2 V2) (t : T) (t2 : T2)
    (vOld : V) (vOld2 : V2)
    (hnd : nodupKeys m.inner) (hsk : sortedKeys bm.inner)
    (hold : alGet (am.split t).1 m.inner = some vOld)
    (hold2 : alGet (am2.split t2).1 bm.inner = some vOld2) :
    ((AutoHashMap.insert am m t).1 = some vOld ∧
     (AutoHashMap.insertCloned am m t).1 = some (am.join ((am.split t).1, vOld)) ∧
     (AutoHashMap.insertCloned am m t).2 = (AutoHashMap.insert am m t).2 ∧
     (AutoHashMap.insert am m t).2.inner.filter
       (fun p => decide (p.1 = (am.split t).1)) = [((am.split t).1, (am.split t).2)]) ∧
    ((AutoBTreeMap.insert am2 bm t2).1 = some vOld2 ∧
     (AutoBTreeMap.insertCloned am2 bm t2).1 = some (am2.join ((am2.split t2).1, vOld2)) ∧
     (AutoBTreeMap.insertCloned am2 bm t2).2 = (AutoBTreeMap.insert am2 bm t2).2 ∧
     (AutoBTreeMap.insert am2 bm t2).2.inner.filter
       (fun p => decide (p.1 = (am2.split t2).1)) = [((am2.split t2).1, (am2.split t2).2)]) := by
  constructor
  · refine ⟨?_, ?_, rfl, ?_⟩
    · simp [AutoHashMap.insert, alInsert_fst, hold]
    · simp [AutoHashMap.insertCloned, alInsert_fst, hold]
    · apply filter_key_of_nodup
      · exact nodupKeys_alInsert _ _ _ hnd
      · exact alGet_alInsert_self _ _ _
  · refine ⟨?_, ?_, rfl, ?_⟩
    · simp [AutoBTreeMap.insert, btInsert_fst _ _ _ hsk, hold2]
    · simp [AutoBTreeMap.insertCloned, btInsert_fst _ _ _ hsk, hold2]
    · apply filter_key_of_nodup
      · exact sortedKeys_nodupKeys _ (sortedKeys_btInsert _ _ _ hsk)
      · exact alGet_btInsert_self _ _ _

/-- Witness for C2: re-inserting Bob at age 41 over the two-entry scenario
maps returns the displaced 23 (and the prior Bob entity for the cloned
variant). -/
theorem replace_semantics_witness :
    nodupKeys hs2.2.inner ∧ sortedKeys bs2.2.inner ∧
    alGet (personAM.split bob2).1 hs2.2.inner = some 23 ∧
    (AutoHashMap.insert personAM hs2.2 bob2).1 = some 23 ∧
    (AutoHashMap.insertCloned personAM hs2.2 bob2).1 = some bob1 ∧
    (AutoBTreeMap.insert personAM bs2.2 bob2).1 = some 23 := by
  have hnd : nodupKeys hs2.2.inner := by
    unfold nodupKeys
    decide
  have hsk : sortedKeys bs2.2.inner := by
    have he : bs2.2.inner = [(str "Bob", (23 : Nat)), (str "Ruth", 32)] := by decide
    rw [he]
    exact sortedKeys_pair _ _ (List.Lex.rel (by decide))
  have h := replace_semantics personAM personAM hs2.2 bs2.2 bob2 bob2 23 23
    hnd hsk (by decide) (by decide)
  exact ⟨hnd, hsk, by decide, h.1.1, h.1.2.1, h.2.1⟩

/-- C9: historical shape-a variant (`src/hash.rs`, `src/btree.rs`):
`insert(val)` stores the entire entity `val` under a clone of `val.key()`
— the pair `(val.key(), val)` is an entry of the map afterwards and looks
up to `val` — and returns the previously stored whole entity under that
key, or `None` if absent. -/
theorem hist_insert_semantics {K T K2 T2 : Type} [DecidableEq K] [LinearOrder K2]
    (am : AutoKeyed T K) (am2 : AutoKeyed T2 K2)
    (m : HistAutoHashMap K T) (bm : HistAutoBTreeMap K2 T2)
    (val : T) (val2 : T2) (hsk : sortedKeys bm.inner) :
    ((HistAutoHashMap.insert am m val).1 = alGet (am.key val) m.inner ∧
     (am.key val, val) ∈ (HistAutoHashMap.insert am m val).2.inner ∧
     alGet (am.key val) (HistAutoHashMap.insert am m val).2.inner = some val) ∧
    ((HistAutoBTreeMap.insert am2 bm val2).1 = alGet (am2.key val2) bm.inner ∧
     (am2.key val2, val2) ∈ (HistAutoBTreeMap.insert am2 bm val2).2.inner ∧
     alGet (am2.key val2) (HistAutoBTreeMap.insert am2 bm val2).2.inner = some val2) := by
  constructor
  · refine ⟨?_, ?_, ?_⟩
    · simp [HistAutoHashMap.insert, alInsert_fst]
    · exact self_mem_alInsert _ _ _
    · exact alGet_alInsert_self _ _ _
  · refine ⟨?_, ?_, ?_⟩
    · simp [HistAutoBTreeMap.insert, btInsert_fst _ _ _ hsk]
    · exact self_mem_btInsert _ _ _
    · exact alGet_btInsert_self _ _ _

/-- Witness for C9: inserting `bob2` into historical maps already holding
Bob at 23 returns the whole previous Bob entity. -/
theorem hist_insert_semantics_witness :
    sortedKeys ([(str "Bob", bob1)] : List (List Char × Person)) ∧
    (HistAutoHashMap.insert personKeyed ⟨[(str "Bob", bob1)]⟩ bob2).1 = some bob1 ∧
    (HistAutoBTreeMap.insert personKeyed ⟨[(str "Bob", bob1)]⟩ bob2).1 = some bob1 ∧
    (str "Bob", bob2) ∈ (HistAutoHashMap.insert personKeyed ⟨[(str "Bob", bob1)]⟩ bob2).2.inner := by
  have hsk : sortedKeys ([(str "Bob", bob1)] : List (List Char × Person)) :=
    List.pairwise_singleton _ _
  have h := hist_insert_semantics personKeyed personKeyed
    ⟨[(str "Bob", bob1)]⟩ ⟨[(str "Bob", bob1)]⟩ bob2 bob2 hsk
  refine ⟨hsk, ?_, ?_, ?_⟩
  · rw [h.1.1]
    decide
  · rw [h.2.1]
    decide
  · exact h.1.2.1

/-- C10: frame property of `remove_cloned`: when `k` is present with
payload `v`, `remove_cloned(k)` returns `some (T::join((k, v)))`, the
resulting map no longer contains `k`, every other key maps to the same
payload as before, and the length decreases by exactly one.  Both
backends. -/
theorem remove_cloned_frame {K V T K2 V2 T2 : Type} [DecidableEq K] [LinearOrder K2]
    (am : AutoMapped T K V) (am2 : AutoMapped T2 K2 V2)
    (m : AutoHashMap K V) (bm : AutoBTreeMap K2 V2) (k : K) (k2 : K2)
    (v : V) (v2 : V2)
    (hnd : nodupKeys m.inner) (hsk : sortedKeys bm.inner)
    (hget : alGet k m.inner = some v) (hget2 : alGet k2 bm.inner = some v2) :
    ((AutoHashMap.removeCloned am m k).1 = some (am.join (k, v)) ∧
     alGet k (AutoHashMap.removeCloned am m k).2.inner = none ∧
     (∀ q, q ≠ k → alGet q (AutoHashMap.removeCloned am m k).2.inner = alGet q m.inner) ∧
     (AutoHashMap.removeCloned am m k).2.inner.length + 1 = m.inner.length) ∧
    ((AutoBTreeMap.removeCloned am2 bm k2).1 = some (am2.join (k2, v2)) ∧
     alGet k2 (AutoBTreeMap.removeCloned am2 bm k2).2.inner = none ∧
     (∀ q, q ≠ k2 → alGet q (AutoBTreeMap.removeCloned am2 bm k2).2.inner = alGet q bm.inner) ∧
     (AutoBTreeMap.removeCloned am2 bm k2).2.inner.length + 1 = bm.inner.length) := by
  constructor
  · refine ⟨?_, ?_, ?_, ?_⟩
    · simp [AutoHashMap.removeCloned, alRemove_fst, hget]
    · exact alGet_alRemove_self _ _ hnd
    · intro q hq
      exact alGet_alRemove_ne _ _ _ hq
    · exact length_alRemove _ _ _ hget
  · refine ⟨?_, ?_, ?_, ?_⟩
    · simp [AutoBTreeMap.removeCloned, alRemove_fst, hget2]
    · exact alGet_alRemove_self _ _ (sortedKeys_nodupKeys _ hsk)
    · intro q hq
      exact alGet_alRemove_ne _ _ _ hq
    · exact length_alRemove _ _ _ hget2

/-- Witness for C10: cloned-removal of Bob from the two-entry scenario
maps returns the Bob entity, leaves Ruth intact, and shrinks the maps to
one entry. -/
theorem remove_cloned_frame_witness :
    nodupKeys hs3.2.inner ∧ sortedKeys bs3.2.inner ∧
    alGet (str "Bob") hs3.2.inner = some 41 ∧
    (AutoHashMap.removeCloned personAM hs3.2 (str "Bob")).1 = some bob2 ∧
    alGet (str "Ruth") (AutoHashMap.removeCloned personAM hs3.2 (str "Bob")).2.inner = some 32 ∧
    (AutoBTreeMap.removeCloned personAM bs3.2 (str "Bob")).2.inner.length + 1 =
      bs3.2.inner.length := by
  have hnd : nodupKeys hs3.2.inner := by
    unfold nodupKeys
    decide
  have hsk : sortedKeys bs3.2.inner := by
    have he : bs3.2.inner = [(str "Bob", (41 : Nat)), (str "Ruth", 32)] := by decide
    rw [he]
    exact sortedKeys_pair _ _ (List.Lex.rel (by decide))
  have h := remove_cloned_frame personAM personAM hs3.2 bs3.2
    (str "Bob") (str "Bob") 41 41 hnd hsk (by decide) (by decide)
  refine ⟨hnd, hsk, by decide, h.1.1, ?_, h.2.2.2.2⟩
  rw [h.1.2.2.1 (str "Ruth") (by decide)]
  decide

end Automap
